import Mathlib

/-!
Shallow embedding of the polarityio/wireshark-oui repository core:
the MAC/OUI parser (`src/mac-parser.js`) and the scheduled file
downloader (`scheduled-file-downloader.js`), together with theorems
settling the specification claims about them.

Strings are processed as lists of characters.  JavaScript semantics are
modelled as follows:
  * machine integers / BigInt values are Nat or Int (no overflow arises
    in the modelled code paths; JS float rounding of parseInt only
    differs from exact integers beyond 2^53, far outside the hex-digit
    counts reachable here and not modelled);
  * a JS number that may be NaN (the result of parseInt on a
    non-numeric string) is an `Option Int`, `none` standing for NaN;
  * JS exceptions are Except/Option results;
  * String.prototype.toUpperCase is modelled per-character via
    Char.toUpper (ASCII); Unicode case expansions (the JS method maps
    some single characters to several) are outside the modelled
    character ranges and are not modelled;
  * trim / the \s regex class are modelled on the ASCII whitespace
    characters, which are the ones the modelled inputs contain.
-/

namespace WiresharkOui

/-- JS whitespace characters relevant to trim and the split regex
(ASCII subset of the JS WhiteSpace/LineTerminator productions). -/
def isWsChar (c : Char) : Bool :=
  c = ' ' || c = '\t' || c = '\n' || c = '\r' || c = '\x0b' || c = '\x0c'

/-- The separator characters stripped by replace with the character
class containing hyphen, colon and dot. -/
def isSepChar (c : Char) : Bool :=
  c = '-' || c = ':' || c = '.'

/-- Value of a hexadecimal digit as accepted by BigInt with an 0x
literal: 0-9, A-F, a-f. -/
def hexDigitVal (c : Char) : Option Nat :=
  if 48 ≤ c.toNat ∧ c.toNat ≤ 57 then some (c.toNat - 48)
  else if 65 ≤ c.toNat ∧ c.toNat ≤ 70 then some (c.toNat - 65 + 10)
  else if 97 ≤ c.toNat ∧ c.toNat ≤ 102 then some (c.toNat - 97 + 10)
  else none

/-- Characters matched by the lookup validation character class
0-9 and A-F (uppercase only, as in the source regex). -/
def isHexUp (c : Char) : Bool :=
  ('0' ≤ c && c ≤ '9') || ('A' ≤ c && c ≤ 'F')

/-- String.prototype.trim on a character list. -/
def jsTrim (l : List Char) : List Char :=
  ((l.dropWhile isWsChar).reverse.dropWhile isWsChar).reverse

/-- String.prototype.split with a single-character separator: keeps
empty pieces, always returns at least one piece. -/
def splitChar (sep : Char) : List Char → List (List Char)
  | [] => [[]]
  | c :: cs =>
    match splitChar sep cs with
    | [] => [[c]]
    | h :: t => if c = sep then [] :: h :: t else (c :: h) :: t

/-- Split on runs of whitespace (the split with regex of one-or-more
whitespace), as it behaves on a trimmed input: no empty pieces. -/
def splitWsAux (cur : List Char) : List Char → List (List Char)
  | [] => if cur = [] then [] else [cur.reverse]
  | c :: cs =>
    if isWsChar c then
      if cur = [] then splitWsAux [] cs else cur.reverse :: splitWsAux [] cs
    else splitWsAux (c :: cur) cs

/-- Split a trimmed line on whitespace runs. -/
def splitWs (l : List Char) : List (List Char) := splitWsAux [] l

/-- Array.prototype.join with a single-character separator. -/
def joinWith (sep : Char) (ps : List (List Char)) : List Char :=
  List.intercalate [sep] ps

/-- Decimal value of a digit list. -/
def decDigitsVal (l : List Char) : Nat :=
  l.foldl (fun a c => 10 * a + (c.toNat - '0'.toNat)) 0

/-- JS parseInt with radix 10: skip leading whitespace, optional sign,
then leading decimal digits; `none` models the NaN result when no
digit is found. -/
def jsParseInt (s : List Char) : Option Int :=
  let t := s.dropWhile isWsChar
  match t with
  | '-' :: r =>
    let ds := r.takeWhile Char.isDigit
    if ds = [] then none else some (-(decDigitsVal ds : Int))
  | '+' :: r =>
    let ds := r.takeWhile Char.isDigit
    if ds = [] then none else some (decDigitsVal ds : Int)
  | _ =>
    let ds := t.takeWhile Char.isDigit
    if ds = [] then none else some (decDigitsVal ds : Int)

/-- Accumulating interpreter for BigInt of an 0x literal: fails (the
JS constructor throws a SyntaxError) on any non-hex character. -/
def hexToNatGo (acc : Nat) : List Char → Option Nat
  | [] => some acc
  | c :: cs =>
    match hexDigitVal c with
    | none => none
    | some d => hexToNatGo (16 * acc + d) cs

/-- BigInt of an 0x-prefixed hex string. -/
def hexToNat (l : List Char) : Option Nat := hexToNatGo 0 l

/-- Total version used where the surrounding code has already
validated that every character is a hex digit. -/
def hexToNatD (l : List Char) : Nat := (hexToNat l).getD 0

/-- JS BigInt right shift: a shift by a negative amount is a left
shift. -/
def jsShr (x : Nat) (n : Int) : Nat :=
  if 0 ≤ n then x >>> n.toNat else x <<< (-n).toNat

/-! ### The in-memory index (JS Map values modelled as association
lists in insertion order; Map.set replaces in place). -/

/-- One reference entry as built by the parser.  The source field
named after the token is called prefixTok here because Lean reserves
that word. -/
structure Entry where
  prefixTok : String
  vendor : String
  comment : String
  deriving DecidableEq, Repr

/-- Inner map: significant prefix value to entry. -/
abbrev InnerMap := List (Nat × Entry)

/-- Outer map: prefix bit count (an `Option Int`; `none` is the NaN a
non-numeric bit-count suffix produces) to inner map. -/
abbrev Index := List (Option Int × InnerMap)

/-- Map.prototype.get on an association list. -/
def getA {α β : Type} [DecidableEq α] : List (α × β) → α → Option β
  | [], _ => none
  | (k', v) :: t, k => if k' = k then some v else getA t k

/-- Map.prototype.set: replace in place if the key exists, else append
(JS Maps preserve insertion order). -/
def setA {α β : Type} [DecidableEq α] : List (α × β) → α → β → List (α × β)
  | [], k, v => [(k, v)]
  | (k', v') :: t, k, v =>
    if k' = k then (k', v) :: t else (k', v') :: setA t k v

/-- The two-level insertion performed per parsed line: create the
inner map for the bit count when absent, then set the entry. -/
def insertEntry (idx : Index) (pb : Option Int) (pv : Nat) (e : Entry) : Index :=
  match getA idx pb with
  | none => setA idx pb (setA ([] : InnerMap) pv e)
  | some m => setA idx pb (setA m pv e)

/-- Keys of the outer map in insertion order. -/
def keysOf (idx : Index) : List (Option Int) := idx.map Prod.fst

/-! ### Per-line parsing helpers, one per source expression. -/

/-- Strip separator characters and uppercase the hex part of the
prefix token. -/
def compactHexOf (hexPart : List Char) : List Char :=
  (hexPart.filter (fun c => ¬ isSepChar c)).map Char.toUpper

/-- The bit count of a line: parseInt of a truthy slash suffix,
otherwise 4 times the hex digit count (the conditional tests the
suffix string itself, so both an absent and an empty suffix take the
default). -/
def prefixBitsOf (cidrOpt : Option (List Char)) (compactHex : List Char) : Option Int :=
  match cidrOpt with
  | some c => if c ≠ [] then jsParseInt c else some ((4 : Int) * compactHex.length)
  | none => some ((4 : Int) * compactHex.length)

/-- BigInt conversion of the compact hex digits, with the source's
fallback of the literal zero string for an empty token. -/
def rawIntOf (compactHex : List Char) : Option Nat :=
  hexToNat (if compactHex = [] then ['0'] else compactHex)

/-- The significant-bit adjustment: drop excess low bits when the
token holds more bits than the bit count, pad left when it holds
fewer; both comparisons are false against NaN, leaving the raw value. -/
def prefixIntOf (compactHex : List Char) (prefixBits : Option Int) (rawInt : Nat) : Nat :=
  let bitsInHex : Int := 4 * compactHex.length
  match prefixBits with
  | none => rawInt
  | some b =>
    if b < bitsInHex then rawInt >>> (bitsInHex - b).toNat
    else if bitsInHex < b then rawInt <<< (b - bitsInHex).toNat
    else rawInt

/-- Field split of a trimmed line: on tabs when the line holds a tab,
else on whitespace runs. -/
def partsOfLine (line : List Char) : List (List Char) :=
  if line.contains '\t' then splitChar '\t' line else splitWs line

/-- Process one raw input line against the index being built; `none`
propagates the exception a non-hex prefix token raises from BigInt
(which aborts the whole parse in the source). -/
def processLine (acc : Option Index) (rawLine : String) : Option Index :=
  acc.bind fun byBits =>
    let line := jsTrim rawLine.toList
    if line = [] then some byBits
    else if line.head? = some '#' then some byBits
    else
      let parts : List (List Char) := partsOfLine line
      match parts with
      | p0 :: p1 :: rest =>
        let prefixToken := jsTrim p0
        let vendor := jsTrim p1
        let joinSep : Char := if parts.contains ['\t'] then '\t' else ' '
        let comment := jsTrim (joinWith joinSep rest)
        let slashPieces := splitChar '/' prefixToken
        let hexPart := slashPieces.headD []
        let cidrOpt : Option (List Char) := slashPieces.get? 1
        let compactHex := compactHexOf hexPart
        let prefixBits := prefixBitsOf cidrOpt compactHex
        (rawIntOf compactHex).map fun rawInt =>
          insertEntry byBits prefixBits (prefixIntOf compactHex prefixBits rawInt)
            ⟨String.mk prefixToken, String.mk vendor, String.mk comment⟩
      | _ => some byBits

/-- The line split: the source splits on optionally-carriage-returned
newlines; splitting on the newline alone is equivalent because each
line is trimmed (removing a trailing carriage return) before any other
use. -/
def splitLinesJs (text : String) : List String :=
  (splitChar '\n' text.toList).map String.mk

/-- Build the index from the decompressed text, line by line. -/
def buildIndexLines (lines : List String) : Option Index :=
  lines.foldl processLine (some [])

/-- Build the index from the decompressed text. -/
def buildIndex (text : String) : Option Index :=
  buildIndexLines (splitLinesJs text)

/-! ### The sorted length list and the lookup loop. -/

/-- The sort comparator: numeric difference, with the NaN a comparator
producing NaN is specified to be treated as zero. -/
def cmpLens (a b : Option Int) : Int :=
  match a, b with
  | some x, some y => y - x
  | _, _ => 0

/-- Insert one element into an already sorted list per the
comparator. -/
def insLen (x : Option Int) : List (Option Int) → List (Option Int)
  | [] => [x]
  | y :: t => if cmpLens x y < 0 then x :: y :: t else y :: insLen x t

/-- Model of Array.prototype.sort with the descending numeric
comparator, as insertion sort.  On all-numeric key lists (the only
lists whose order any theorem relies on) every correct sort agrees;
multi-element lists containing NaN have implementation-defined order
in JS and are not relied upon. -/
def jsSortLens : List (Option Int) → List (Option Int)
  | [] => []
  | x :: t => insLen x (jsSortLens t)

/-- Strip separators from a queried address and uppercase it. -/
def stripUpper (mac : String) : List Char :=
  (mac.toList.filter (fun c => ¬ isSepChar c)).map Char.toUpper

/-- The validation regex: six to twelve uppercase hex digits. -/
def validCompact (l : List Char) : Bool :=
  decide (6 ≤ l.length) && decide (l.length ≤ 12) && l.all isHexUp

/-- The per-length probe of the lookup loop body: shift the address
down to the top bits of this length and consult the maps. -/
def hitAt (entries : Index) (macInt : Nat) (b : Int) : Option Entry :=
  (getA entries (some b)).bind fun m => getA m (jsShr macInt (48 - b))

/-- The lookup loop over the sorted lengths; reaching a NaN length
models the exception BigInt raises on the shift amount there. -/
def lookupLoop (entries : Index) (macInt : Nat) : List (Option Int) → Except Unit (Option Entry)
  | [] => .ok none
  | none :: _ => .error ()
  | some b :: rest =>
    match hitAt entries macInt b with
    | some e => .ok (some e)
    | none => lookupLoop entries macInt rest

/-- The body of lookup after initialization: normalize, validate,
convert, scan lengths. -/
def jsLookupIdx (entries : Index) (lens : List (Option Int)) (mac : String) :
    Except Unit (Option Entry) :=
  let compact := stripUpper mac
  if validCompact compact then lookupLoop entries (hexToNatD compact) lens
  else .ok none

/-! ### Parser object state, initialization and the full lookup call
(with its implicit initialization and its I/O trace). -/

/-- The mutable fields of the parser object. -/
structure MacParserState where
  entries : Index
  sortedLens : List (Option Int)
  ready : Bool
  deriving DecidableEq, Repr

/-- The state a freshly constructed parser holds. -/
def initialParserState : MacParserState := ⟨[], [], false⟩

/-- The errors the parse pass can raise: the file read or gunzip
failing, or BigInt throwing on a non-hex prefix token. -/
inductive ParseErr where
  | ioError
  | hexError
  deriving DecidableEq, Repr

/-- One call of the parse pass.  The decompressed file text is an
input (`none` models the read or the decompression throwing).  The
pair returned is the state the object holds after the call and the
raised error, if any: the two index fields are assigned only at the
very end of the source function, after the whole index is built, so an
error of any stage leaves the incoming state untouched. -/
def parseManufCall (file : Option String) (st : MacParserState) :
    MacParserState × Option ParseErr :=
  match file with
  | none => (st, some .ioError)
  | some text =>
    match buildIndex text with
    | none => (st, some .hexError)
    | some byBits => (⟨byBits, jsSortLens (keysOf byBits), st.ready⟩, none)

/-- The I/O operations the parser can perform (all reads). -/
inductive IOAct where
  | fileAccess
  | fileRead
  deriving DecidableEq, Repr

/-- One call of init: a no-op when already ready, otherwise the
readability check, then the read-and-parse pass, then the ready flag.
`accessOk` models whether the access check passes; `file` the
read/gunzip result. -/
def initCall (accessOk : Bool) (file : Option String) (st : MacParserState) :
    List IOAct × MacParserState × Option ParseErr :=
  if st.ready then ([], st, none)
  else if ¬ accessOk then ([.fileAccess], st, some .ioError)
  else
    match parseManufCall file st with
    | (st', some e) => ([.fileAccess, .fileRead], st', some e)
    | (st', none) => ([.fileAccess, .fileRead], ⟨st'.entries, st'.sortedLens, true⟩, none)

/-- How a lookup call can fail: its internal init raising, or the
BigInt conversion of a NaN shift amount raising inside the loop. -/
inductive LookupErr where
  | initFailed (e : ParseErr)
  | nanBits
  deriving DecidableEq, Repr

/-- One full lookup call: it awaits init first, then runs the
normalize-validate-scan body against the state init produced. -/
def lookupCall (accessOk : Bool) (file : Option String) (st : MacParserState)
    (mac : String) : List IOAct × MacParserState × Except LookupErr (Option Entry) :=
  match initCall accessOk file st with
  | (ops, st', some e) => (ops, st', .error (.initFailed e))
  | (ops, st', none) =>
    (ops, st',
      match jsLookupIdx st'.entries st'.sortedLens mac with
      | .error _ => .error .nanBits
      | .ok r => .ok r)

/-! ### The scheduled file downloader. -/

/-- The filesystem steps of the disk phase of the download, in
program order. -/
inductive WStep where
  | mkdirp (dir : String)
  | writeF (path : String) (content : String)
  | renameF (src : String) (dst : String)
  deriving DecidableEq, Repr

/-- A flat model of file contents by path.  Recursive directory
creation touches no file; write replaces one path; rename moves the
source contents over the destination and clears the source. -/
def applyStep (fs : String → Option String) : WStep → (String → Option String)
  | .mkdirp _ => fs
  | .writeF p c => fun q => if q = p then some c else fs q
  | .renameF s d => fun q => if q = d then fs s else if q = s then none else fs q

/-- Apply a sequence of steps in order. -/
def applySteps (fs : String → Option String) (steps : List WStep) : String → Option String :=
  steps.foldl applyStep fs

/-- Directory part of a path: everything before the final slash. -/
def jsDirname (p : String) : String :=
  String.mk ((p.toList.reverse.dropWhile (fun c => c ≠ '/')).drop 1).reverse

/-- The temporary path the download writes: the destination path with
a dotted tmp suffix carrying the timestamp. -/
def tmpPathOf (filePath : String) (now : Nat) : String :=
  filePath ++ ".tmp-" ++ toString now

/-- The disk phase of one download: make the directory, write the
payload to the temporary file, rename it over the destination. -/
def downloadWriteSteps (filePath body : String) (now : Nat) : List WStep :=
  [.mkdirp (jsDirname filePath), .writeF (tmpPathOf filePath now) body,
   .renameF (tmpPathOf filePath now) filePath]

/-- The downloader's observable events. -/
inductive SfdEvent where
  | updated
  | errorStage (stage : String)
  deriving DecidableEq, Repr

/-- One call of the download routine, reduced to its event trace and
its success flag.  `net` is the HTTP result (`Except.error` a
transport failure, otherwise status code and body); `writeOk` whether
the disk phase succeeds.  The second option argument of the source
function is accepted and, as in the source body, never read. -/
def downloadFileRun (emitErrors emitUpdate : Bool) (net : Except Unit (Int × String))
    (writeOk : Bool) : List SfdEvent × Bool :=
  match net with
  | .error _ => ((if emitErrors then [.errorStage "download"] else []), false)
  | .ok (code, _body) =>
    if code < 200 ∨ 300 ≤ code then
      ((if emitErrors then [.errorStage "download"] else []), false)
    else if writeOk then ([.updated], true)
    else ((if emitErrors then [.errorStage "write"] else []), false)

/-- One call of the downloader's init: the staleness check, one
download attempt when stale (with error emission suppressed exactly
when init is configured to throw, and the update flag passed false),
then the job scheduling.  `Except.error` models init rethrowing. -/
def sfdInitRun (throwOnInit : Bool) (expiredRes : Except Unit Bool)
    (net : Except Unit (Int × String)) (writeOk : Bool) : Except Unit (List SfdEvent) :=
  match expiredRes with
  | .error _ =>
    if throwOnInit then .error ()
    else
      let (evs, _) := downloadFileRun true false net writeOk
      .ok (.errorStage "init" :: evs)
  | .ok expired =>
    if expired then
      let (evs, ok) := downloadFileRun (!throwOnInit) false net writeOk
      if !ok && throwOnInit then .error () else .ok evs
    else .ok []

/-- The stat outcome the staleness check consumes. -/
inductive StatResult where
  | enoent
  | otherError
  | statOk (mtimeMs : Int)
  deriving DecidableEq, Repr

/-- The staleness check: a missing file is stale; any other stat
failure is rethrown; otherwise the file is stale exactly when its
modification time is earlier than the most recent cron trigger at or
before now (`lastDueMs`, computed by the external cron library and
taken as an input here). -/
def isExpiredRun (st : StatResult) (lastDueMs : Int) : Except Unit Bool :=
  match st with
  | .enoent => .ok true
  | .otherError => .error ()
  | .statOk m => .ok (decide (m < lastDueMs))

/-! ### Association-list lemmas. -/

theorem getA_mem_pair {α β : Type} [DecidableEq α] :
    ∀ {l : List (α × β)} {k : α} {v : β}, getA l k = some v → (k, v) ∈ l := by
  intro l
  induction l with
  | nil => intro k v h; cases h
  | cons p t ih =>
    intro k v h
    obtain ⟨k', v'⟩ := p
    by_cases hk : k' = k
    · rw [getA, if_pos hk] at h
      injection h with hv
      subst hk; subst hv
      exact List.mem_cons_self _ _
    · rw [getA, if_neg hk] at h
      exact List.mem_cons_of_mem _ (ih h)

theorem mem_keys_of_getA {α β : Type} [DecidableEq α] {l : List (α × β)} {k : α} {v : β}
    (h : getA l k = some v) : k ∈ l.map Prod.fst :=
  List.mem_map.mpr ⟨(k, v), getA_mem_pair h, rfl⟩

theorem getA_isSome_of_mem_keys {α β : Type} [DecidableEq α] :
    ∀ {l : List (α × β)} {k : α}, k ∈ l.map Prod.fst → (getA l k).isSome = true := by
  intro l
  induction l with
  | nil => intro k h; cases h
  | cons p t ih =>
    intro k h
    obtain ⟨k', v'⟩ := p
    by_cases hk : k' = k
    · rw [getA, if_pos hk]; rfl
    · rw [getA, if_neg hk]
      apply ih
      rcases List.mem_cons.mp h with h1 | h1
    -- the head case contradicts the key mismatch
      · exact absurd h1.symm hk
      · exact h1

theorem mem_setA {α β : Type} [DecidableEq α] :
    ∀ {l : List (α × β)} {k : α} {v : β} {p : α × β},
      p ∈ setA l k v → p = (k, v) ∨ p ∈ l := by
  intro l
  induction l with
  | nil =>
    intro k v p h
    rw [setA] at h
    exact Or.inl (List.mem_singleton.mp h)
  | cons q t ih =>
    intro k v p h
    obtain ⟨k', v'⟩ := q
    by_cases hk : k' = k
    · rw [setA, if_pos hk] at h
      rcases List.mem_cons.mp h with h1 | h1
      · subst hk; exact Or.inl h1
      · exact Or.inr (List.mem_cons_of_mem _ h1)
    · rw [setA, if_neg hk] at h
      rcases List.mem_cons.mp h with h1 | h1
      · exact Or.inr (h1 ▸ List.mem_cons_self _ _)
      · rcases ih h1 with h2 | h2
        · exact Or.inl h2
        · exact Or.inr (List.mem_cons_of_mem _ h2)

theorem keys_setA {α β : Type} [DecidableEq α] :
    ∀ (l : List (α × β)) (k : α) (v : β),
      (setA l k v).map Prod.fst =
        if k ∈ l.map Prod.fst then l.map Prod.fst else l.map Prod.fst ++ [k] := by
  intro l
  induction l with
  | nil => intro k v; simp [setA]
  | cons q t ih =>
    intro k v
    obtain ⟨k', v'⟩ := q
    by_cases hk : k' = k
    · subst hk
      rw [setA, if_pos rfl]
      simp
    · rw [setA, if_neg hk]
      by_cases hm : k ∈ t.map Prod.fst
      · simp only [List.map_cons, ih]
        rw [if_pos hm, if_pos (List.mem_cons_of_mem _ hm)]
      · have hnc : k ∉ ((k', v') :: t).map Prod.fst := by
          simp only [List.map_cons, List.mem_cons]
          rintro (h1 | h1)
          · exact hk h1.symm
          · exact hm h1
        simp only [List.map_cons, ih]
        rw [if_neg hm, if_neg (by simpa using hnc)]
        rfl

theorem nodup_keys_setA {α β : Type} [DecidableEq α] {l : List (α × β)} {k : α} {v : β}
    (h : (l.map Prod.fst).Nodup) : ((setA l k v).map Prod.fst).Nodup := by
  rw [keys_setA]
  by_cases hm : k ∈ l.map Prod.fst
  · rwa [if_pos hm]
  · rw [if_neg hm]
    have hperm : List.Perm (l.map Prod.fst ++ [k]) (k :: l.map Prod.fst) :=
      List.perm_append_singleton _ _
    exact hperm.nodup_iff.mpr (List.nodup_cons.mpr ⟨hm, h⟩)

/-! ### Bounds on the parsed hex values. -/

theorem hexDigitVal_lt {c : Char} {d : Nat} (h : hexDigitVal c = some d) : d < 16 := by
  unfold hexDigitVal at h
  split_ifs at h with h1 h2 h3 <;> injection h with h' <;> omega

theorem hexToNatGo_lt :
    ∀ (l : List Char) (acc v : Nat), hexToNatGo acc l = some v →
      v < (acc + 1) * 16 ^ l.length := by
  intro l
  induction l with
  | nil =>
    intro acc v h
    rw [hexToNatGo] at h
    injection h with h'
    subst h'
    simp
  | cons c cs ih =>
    intro acc v h
    rw [hexToNatGo] at h
    cases hd : hexDigitVal c with
    | none => rw [hd] at h; cases h
    | some d =>
      rw [hd] at h
      have h16 := hexDigitVal_lt hd
      have hv := ih (16 * acc + d) v h
      have hstep : (16 * acc + d + 1) * 16 ^ cs.length ≤ (acc + 1) * 16 ^ (c :: cs).length := by
        rw [List.length_cons, pow_succ]
        calc (16 * acc + d + 1) * 16 ^ cs.length
            ≤ ((acc + 1) * 16) * 16 ^ cs.length :=
              Nat.mul_le_mul_right _ (by omega)
          _ = (acc + 1) * (16 ^ cs.length * 16) := by ring
      exact lt_of_lt_of_le hv hstep

theorem hexToNat_lt {l : List Char} {v : Nat} (h : hexToNat l = some v) :
    v < 16 ^ l.length := by
  have := hexToNatGo_lt l 0 v h
  simpa using this

theorem rawIntOf_lt {compact : List Char} {v : Nat} (h : rawIntOf compact = some v) :
    v < 2 ^ (4 * compact.length) := by
  unfold rawIntOf at h
  by_cases hc : compact = []
  · rw [if_pos hc] at h
    have h0 : hexToNat ['0'] = some 0 := rfl
    rw [h0] at h
    injection h with h'
    subst h'
    subst hc
    simp
  · rw [if_neg hc] at h
    have := hexToNat_lt h
    calc v < 16 ^ compact.length := this
      _ = 2 ^ (4 * compact.length) := by
          rw [show (16 : Nat) = 2 ^ 4 from rfl, ← pow_mul]

theorem prefixIntOf_lt {compact : List Char} {v : Nat}
    (hv : v < 2 ^ (4 * compact.length)) (b : Int) (hb : 0 ≤ b) :
    prefixIntOf compact (some b) v < 2 ^ b.toNat := by
  rw [show prefixIntOf compact (some b) v =
      (if b < (4 * compact.length : Int) then v >>> ((4 * compact.length : Int) - b).toNat
       else if (4 * compact.length : Int) < b then v <<< (b - (4 * compact.length : Int)).toNat
       else v) from rfl]
  by_cases h1 : b < (4 * compact.length : Int)
  · rw [if_pos h1, Nat.shiftRight_eq_div_pow]
    rw [Nat.div_lt_iff_lt_mul (Nat.pos_pow_of_pos _ (by omega))]
    have hexp : b.toNat + ((4 * compact.length : Int) - b).toNat = 4 * compact.length := by
      omega
    calc v < 2 ^ (4 * compact.length) := hv
      _ = 2 ^ b.toNat * 2 ^ ((4 * compact.length : Int) - b).toNat := by
          rw [← pow_add, hexp]
  · rw [if_neg h1]
    by_cases h2 : (4 * compact.length : Int) < b
    · rw [if_pos h2, Nat.shiftLeft_eq]
      have hexp : 4 * compact.length + (b - (4 * compact.length : Int)).toNat = b.toNat := by
        omega
      calc v * 2 ^ (b - (4 * compact.length : Int)).toNat
          < 2 ^ (4 * compact.length) * 2 ^ (b - (4 * compact.length : Int)).toNat :=
            mul_lt_mul_of_pos_right hv (pow_pos (by norm_num) _)
        _ = 2 ^ b.toNat := by rw [← pow_add, hexp]
    · rw [if_neg h2]
      have : b.toNat = 4 * compact.length := by omega
      rw [this]
      exact hv

/-! ### Well-formedness of every built index. -/

/-- Well-formedness of one bucket of the index: distinct prefix
values, each fitting in the bucket's bit count whenever that bit count
is a nonnegative number. -/
def InnerWF (pb : Option Int) (m : InnerMap) : Prop :=
  (m.map Prod.fst).Nodup ∧
    ∀ q ∈ m, ∀ b : Int, pb = some b → 0 ≤ b → q.1 < 2 ^ b.toNat

/-- Well-formedness of the whole index: distinct bit counts, each
bucket well formed. -/
def IndexWF (idx : Index) : Prop :=
  (keysOf idx).Nodup ∧ ∀ p ∈ idx, InnerWF p.1 p.2

theorem insertEntry_wf {idx : Index} {pb : Option Int} {pv : Nat} {e : Entry}
    (hwf : IndexWF idx)
    (hfit : ∀ b : Int, pb = some b → 0 ≤ b → pv < 2 ^ b.toNat) :
    IndexWF (insertEntry idx pb pv e) := by
  have hkeys : ∀ m : InnerMap, ((setA idx pb m).map Prod.fst).Nodup :=
    fun m => nodup_keys_setA (l := idx) hwf.1
  have hinner : ∀ (m : InnerMap), InnerWF pb m → InnerWF pb (setA m pv e) := by
    intro m hm
    refine ⟨nodup_keys_setA hm.1, ?_⟩
    intro q hq b hb hb0
    rcases mem_setA hq with h1 | h1
    · subst h1; exact hfit b hb hb0
    · exact hm.2 q h1 b hb hb0
  unfold insertEntry
  cases hg : getA idx pb with
  | none =>
    refine ⟨hkeys _, ?_⟩
    intro p hp
    rcases mem_setA hp with h1 | h1
    · subst h1
      exact hinner [] ⟨List.nodup_nil, by simp⟩
    · exact hwf.2 p h1
  | some m =>
    refine ⟨hkeys _, ?_⟩
    intro p hp
    rcases mem_setA hp with h1 | h1
    · subst h1
      exact hinner m (hwf.2 (pb, m) (getA_mem_pair hg))
    · exact hwf.2 p h1

theorem processLine_wf {idx idx' : Index} {rawLine : String}
    (hwf : IndexWF idx) (h : processLine (some idx) rawLine = some idx') :
    IndexWF idx' := by
  unfold processLine at h
  rw [Option.some_bind] at h
  dsimp only at h
  split_ifs at h with h1 h2 h3
  · injection h with h'; rwa [← h']
  · injection h with h'; rwa [← h']
  · split at h
    · rename_i parts p0 p1 rest heq
      cases hr : rawIntOf (compactHexOf ((splitChar '/' (jsTrim p0)).headD [])) with
      | none => rw [hr] at h; cases h
      | some rawInt =>
        rw [hr, Option.map_some'] at h
        injection h with h'
        rw [← h']
        apply insertEntry_wf hwf
        intro b hb hb0
        rw [hb]
        exact prefixIntOf_lt (rawIntOf_lt hr) b hb0
    · injection h with h'; rwa [← h']
  · split at h
    · rename_i parts p0 p1 rest heq
      cases hr : rawIntOf (compactHexOf ((splitChar '/' (jsTrim p0)).headD [])) with
      | none => rw [hr] at h; cases h
      | some rawInt =>
        rw [hr, Option.map_some'] at h
        injection h with h'
        rw [← h']
        apply insertEntry_wf hwf
        intro b hb hb0
        rw [hb]
        exact prefixIntOf_lt (rawIntOf_lt hr) b hb0
    · injection h with h'; rwa [← h']

theorem buildIndexLines_wf :
    ∀ (lines : List String) (acc : Option Index) (idx' : Index),
      (∀ i : Index, acc = some i → IndexWF i) →
      lines.foldl processLine acc = some idx' → IndexWF idx' := by
  intro lines
  induction lines with
  | nil =>
    intro acc idx' hacc h
    simp only [List.foldl_nil] at h
    exact hacc _ h
  | cons l ls ih =>
    intro acc idx' hacc h
    rw [List.foldl_cons] at h
    refine ih _ _ ?_ h
    intro i hi
    cases acc with
    | none => simp [processLine] at hi
    | some a => exact processLine_wf (hacc a rfl) hi

theorem buildIndex_wf {text : String} {idx : Index} (h : buildIndex text = some idx) :
    IndexWF idx := by
  refine buildIndexLines_wf _ _ _ ?_ h
  intro i hi
  injection hi with h'
  rw [← h']
  exact ⟨List.nodup_nil, by simp⟩

/-! ### Order of the sorted length list and the longest-match
behaviour of the lookup loop. -/

/-- Strict descending order between two length-list elements: both
numeric, the left strictly larger. -/
def gtK (a b : Option Int) : Prop :=
  ∃ x y : Int, a = some x ∧ b = some y ∧ y < x

/-- Boolean adjacent-pairs strict-descent check of a length list. -/
def descB : List (Option Int) → Bool
  | [] => true
  | [_] => true
  | a :: b :: t =>
    (match a, b with
     | some x, some y => decide (y < x)
     | _, _ => false) && descB (b :: t)

theorem insLen_perm (x : Option Int) :
    ∀ l : List (Option Int), List.Perm (insLen x l) (x :: l) := by
  intro l
  induction l with
  | nil => exact List.Perm.refl _
  | cons y t ih =>
    rw [insLen]
    by_cases hc : cmpLens x y < 0
    · rw [if_pos hc]
    · rw [if_neg hc]
      exact (ih.cons y).trans (List.Perm.swap x y t)

theorem jsSortLens_perm :
    ∀ l : List (Option Int), List.Perm (jsSortLens l) l := by
  intro l
  induction l with
  | nil => exact List.Perm.refl _
  | cons x t ih =>
    rw [jsSortLens]
    exact (insLen_perm x (jsSortLens t)).trans (ih.cons x)

theorem insLen_pairwise {x : Option Int} {l : List (Option Int)}
    (hx : x.isSome = true) (hl : ∀ k ∈ l, Option.isSome k = true)
    (hnd : x ∉ l) (hs : l.Pairwise gtK) :
    (insLen x l).Pairwise gtK := by
  induction l with
  | nil => simp [insLen, gtK]
  | cons y t ih =>
    obtain ⟨xv, hxv⟩ := Option.isSome_iff_exists.mp hx
    obtain ⟨yv, hyv⟩ := Option.isSome_iff_exists.mp (hl y (List.mem_cons_self _ _))
    rw [insLen]
    by_cases hc : cmpLens x y < 0
    · rw [if_pos hc]
      have hyx : yv < xv := by
        rw [hxv, hyv, cmpLens] at hc
        omega
      refine List.pairwise_cons.mpr ⟨?_, hs⟩
      intro z hz
      rcases List.mem_cons.mp hz with h1 | h1
      · exact ⟨xv, yv, hxv, h1 ▸ hyv, hyx⟩
      · obtain ⟨y', z', hy', hz', hlt⟩ := (List.pairwise_cons.mp hs).1 z h1
        refine ⟨xv, z', hxv, hz', ?_⟩
        rw [hyv] at hy'
        injection hy' with hy''
        omega
    · rw [if_neg hc]
      have hxy : xv < yv := by
        rw [hxv, hyv, cmpLens] at hc
        have hne : xv ≠ yv := by
          intro he
          apply hnd
          rw [hxv, he, ← hyv]
          exact List.mem_cons_self _ _
        omega
      have htl : ∀ k ∈ t, Option.isSome k = true :=
        fun k hk => hl k (List.mem_cons_of_mem _ hk)
      have hndt : x ∉ t := fun hm => hnd (List.mem_cons_of_mem _ hm)
      refine List.pairwise_cons.mpr ⟨?_, ih htl hndt (List.pairwise_cons.mp hs).2⟩
      intro z hz
      have hz' : z ∈ x :: t := (insLen_perm x t).mem_iff.mp hz
      rcases List.mem_cons.mp hz' with h1 | h1
      · exact ⟨yv, xv, hyv, h1 ▸ hxv, hxy⟩
      · exact (List.pairwise_cons.mp hs).1 z h1

theorem jsSortLens_pairwise {l : List (Option Int)}
    (hl : ∀ k ∈ l, Option.isSome k = true) (hnd : l.Nodup) :
    (jsSortLens l).Pairwise gtK := by
  induction l with
  | nil => simp [jsSortLens]
  | cons x t ih =>
    rw [jsSortLens]
    have htl : ∀ k ∈ t, Option.isSome k = true :=
      fun k hk => hl k (List.mem_cons_of_mem _ hk)
    have hxt : x ∉ jsSortLens t := by
      intro hm
      exact (List.nodup_cons.mp hnd).1 ((jsSortLens_perm t).mem_iff.mp hm)
    exact insLen_pairwise (hl x (List.mem_cons_self _ _))
      (fun k hk => htl k ((jsSortLens_perm t).mem_iff.mp hk)) hxt
      (ih htl (List.nodup_cons.mp hnd).2)

theorem descB_of_pairwise :
    ∀ {l : List (Option Int)}, l.Pairwise gtK → descB l = true := by
  intro l
  induction l with
  | nil => intro; rfl
  | cons a t ih =>
    intro h
    cases t with
    | nil => rfl
    | cons b t' =>
      obtain ⟨x, y, hx, hy, hlt⟩ := (List.pairwise_cons.mp h).1 b (List.mem_cons_self _ _)
      have htail := ih (List.pairwise_cons.mp h).2
      subst hx
      subst hy
      show (decide (y < x) && descB (some y :: t')) = true
      simp [hlt, htail]

theorem lookupLoop_finds (entries : Index) (macInt : Nat) :
    ∀ (lens : List (Option Int)),
      (∀ k ∈ lens, Option.isSome k = true) →
      lens.Pairwise gtK →
      ∀ (b : Int) (e : Entry), some b ∈ lens →
        hitAt entries macInt b = some e →
        (∀ b' : Int, b < b' → hitAt entries macInt b' = none) →
        lookupLoop entries macInt lens = .ok (some e) := by
  intro lens
  induction lens with
  | nil =>
    intro _ _ b e hmem
    cases hmem
  | cons k rest ih =>
    intro hnum hsorted b e hmem hhit habove
    cases k with
    | none => cases hnum none (List.mem_cons_self _ _)
    | some b0 =>
      by_cases hb : b0 = b
      · subst hb
        rw [lookupLoop, hhit]
      · have hbtail : some b ∈ rest := by
          rcases List.mem_cons.mp hmem with h1 | h1
          · injection h1 with h2; exact absurd h2.symm hb
          · exact h1
        obtain ⟨x, y, hx, hy, hlt⟩ := (List.pairwise_cons.mp hsorted).1 _ hbtail
        injection hx with hx'
        injection hy with hy'
        subst hx'; subst hy'
        have hnone : hitAt entries macInt b0 = none := habove b0 hlt
        rw [lookupLoop, hnone]
        exact ih (fun k hk => hnum k (List.mem_cons_of_mem _ hk))
          (List.pairwise_cons.mp hsorted).2 b e hbtail hhit habove

theorem lookupLoop_nomatch (entries : Index) (macInt : Nat) :
    ∀ (lens : List (Option Int)),
      (∀ k ∈ lens, Option.isSome k = true) →
      (∀ b' : Int, hitAt entries macInt b' = none) →
      lookupLoop entries macInt lens = .ok none := by
  intro lens
  induction lens with
  | nil => intro _ _; rfl
  | cons k rest ih =>
    intro hnum hnone
    cases k with
    | none => cases hnum none (List.mem_cons_self _ _)
    | some b0 =>
      rw [lookupLoop, hnone b0]
      exact ih (fun k hk => hnum k (List.mem_cons_of_mem _ hk)) hnone

/-! ### Claim C1. -/

/-- C1 (amended): for every index built by the parse pass all of whose
present prefix lengths are numeric (no NaN length from a non-numeric
bit-count suffix), and every address string the lookup validation
accepts, the length list is sorted in strictly descending order, and
the lookup returns the entry of the (unique, hence first) matching
length that has no longer matching length above it, or null when no
present length matches. -/
theorem claim1_lookup_longest_first (text : String) (idx : Index)
    (hbuild : buildIndex text = some idx)
    (hnum : ∀ k ∈ keysOf idx, Option.isSome k = true) :
    descB (jsSortLens (keysOf idx)) = true ∧
    ∀ mac : String, validCompact (stripUpper mac) = true →
      (∀ (b : Int) (e : Entry),
          hitAt idx (hexToNatD (stripUpper mac)) b = some e →
          (∀ b' : Int, b < b' → hitAt idx (hexToNatD (stripUpper mac)) b' = none) →
          jsLookupIdx idx (jsSortLens (keysOf idx)) mac = .ok (some e)) ∧
      ((∀ b' : Int, hitAt idx (hexToNatD (stripUpper mac)) b' = none) →
          jsLookupIdx idx (jsSortLens (keysOf idx)) mac = .ok none) := by
  have hnd : (keysOf idx).Nodup := (buildIndex_wf hbuild).1
  have hsorted := jsSortLens_pairwise hnum hnd
  have hnums : ∀ k ∈ jsSortLens (keysOf idx), Option.isSome k = true :=
    fun k hk => hnum k ((jsSortLens_perm _).mem_iff.mp hk)
  refine ⟨descB_of_pairwise hsorted, ?_⟩
  intro mac hvalid
  constructor
  · intro b e hhit habove
    have hg : some b ∈ keysOf idx := by
      rw [hitAt] at hhit
      cases hg0 : getA idx (some b) with
      | none => rw [hg0] at hhit; cases hhit
      | some m => exact mem_keys_of_getA hg0
    show (if validCompact (stripUpper mac) then
        lookupLoop idx (hexToNatD (stripUpper mac)) (jsSortLens (keysOf idx))
      else .ok none) = .ok (some e)
    rw [if_pos hvalid]
    exact lookupLoop_finds idx _ _ hnums hsorted b e
      ((jsSortLens_perm _).mem_iff.mpr hg) hhit habove
  · intro hnone
    show (if validCompact (stripUpper mac) then
        lookupLoop idx (hexToNatD (stripUpper mac)) (jsSortLens (keysOf idx))
      else .ok none) = .ok none
    rw [if_pos hvalid]
    exact lookupLoop_nomatch idx _ _ hnums hnone

/-- The index the parse pass builds from a two-line file holding a
24-bit and a 36-bit entry over the same leading octets. -/
def sampleIdx : Index :=
  [(some 24, [(4386, ⟨"001122/24", "Acme", ""⟩)]),
   (some 36, [(17965876, ⟨"001122334/36", "Beta", ""⟩)])]

/-- C1 witness: on the two-entry index above and an address covered by
both the 24-bit and the 36-bit entry, the sorted lengths descend
strictly and lookup returns the 36-bit entry. -/
theorem claim1_lookup_longest_first_witness :
    descB (jsSortLens (keysOf sampleIdx)) = true ∧
    jsLookupIdx sampleIdx (jsSortLens (keysOf sampleIdx)) "001122334455" =
      .ok (some ⟨"001122334/36", "Beta", ""⟩) := by
  have h := claim1_lookup_longest_first "001122/24\tAcme\n001122334/36\tBeta"
    sampleIdx rfl (by decide)
  refine ⟨h.1, ?_⟩
  refine (h.2 "001122334455" (by decide)).1 36 ⟨"001122334/36", "Beta", ""⟩ rfl ?_
  intro b' hb'
  have h1 : ((some 24 : Option Int)) ≠ some b' := by
    intro he; injection he with he'; omega
  have h2 : ((some 36 : Option Int)) ≠ some b' := by
    intro he; injection he with he'; omega
  rw [hitAt, show getA sampleIdx (some b') = none from by
    rw [sampleIdx, getA, if_neg h1, getA, if_neg h2, getA]]
  rfl

/-- The index the parse pass builds from a line whose bit-count suffix
is not numeric: the prefix length stored is NaN. -/
def nanIdx : Index := [(none, [(170, ⟨"AA/x", "V", ""⟩)])]

/-- C1 counterexample: a built index with a NaN prefix length, against
a valid 48-bit address string, makes lookup raise (the BigInt
conversion of the NaN shift amount throws) instead of returning the
entry of a matching length or null, so the claim as stated fails. -/
theorem claim1_lookup_longest_first_counterexample :
    buildIndex "AA/x\tV" = some nanIdx ∧
    validCompact (stripUpper "001122334455") = true ∧
    jsLookupIdx nanIdx (jsSortLens (keysOf nanIdx)) "001122334455" = .error () :=
  ⟨rfl, rfl, rfl⟩

/-! ### Claim C2. -/

theorem tmpPath_ne (fp : String) (now : Nat) : tmpPathOf fp now ≠ fp := by
  intro h
  have h2 := congrArg String.length h
  rw [tmpPathOf, String.length_append, String.length_append] at h2
  have h5 : (".tmp-" : String).length = 5 := rfl
  omega

/-- C2: the disk phase of a download writes only the temporary file
(never the destination path directly) and touches the destination only
by the final rename, so after any strict prefix of its steps — any
failure before the rename completes — the destination file's contents
are unchanged. -/
theorem claim2_atomic_replace (fs : String → Option String) (fp body : String) (now : Nat)
    (k : Nat) (hk : k < 3) :
    applySteps fs ((downloadWriteSteps fp body now).take k) fp = fs fp ∧
    ∀ p c, WStep.writeF p c ∈ downloadWriteSteps fp body now → p ≠ fp := by
  constructor
  · interval_cases k
    · rfl
    · rfl
    · show (if fp = tmpPathOf fp now then some body else fs fp) = fs fp
      rw [if_neg (fun h => tmpPath_ne fp now h.symm)]
  · intro p c hmem
    simp only [downloadWriteSteps, List.mem_cons, List.not_mem_nil, or_false] at hmem
    rcases hmem with h1 | h1 | h1
    · cases h1
    · injection h1 with hp hc
      rw [hp]
      exact tmpPath_ne fp now
    · cases h1

/-- C2 witness: with the destination holding some prior contents,
running the first two steps (directory creation and the temporary
write) leaves those contents in place, and no write step of the
sequence targets the destination. -/
theorem claim2_atomic_replace_witness :
    applySteps (fun _ => some "old") ((downloadWriteSteps "data/manuf.gz" "payload" 7).take 2)
        "data/manuf.gz" = some "old" ∧
    ∀ p c, WStep.writeF p c ∈ downloadWriteSteps "data/manuf.gz" "payload" 7 →
      p ≠ "data/manuf.gz" := by
  have h := claim2_atomic_replace (fun _ => some "old") "data/manuf.gz" "payload" 7 2
    (by omega)
  exact ⟨h.1, h.2⟩

/-! ### Claim C3. -/

theorem processLine_skip (acc : Option Index) (bad : String)
    (h : (partsOfLine (jsTrim bad.toList)).length < 2) :
    processLine acc bad = acc := by
  cases acc with
  | none => rfl
  | some idx =>
    unfold processLine
    rw [Option.some_bind]
    dsimp only
    by_cases h1 : jsTrim bad.toList = []
    · rw [if_pos h1]
    · rw [if_neg h1]
      by_cases h2 : (jsTrim bad.toList).head? = some '#'
      · rw [if_pos h2]
      · rw [if_neg h2]
        cases hp : partsOfLine (jsTrim bad.toList) with
        | nil => rfl
        | cons p0 t =>
          cases t with
          | nil => rfl
          | cons p1 rest =>
            rw [hp] at h
            simp only [List.length_cons] at h
            omega

theorem buildIndexLines_skip (l1 l2 : List String) (bad : String)
    (h : (partsOfLine (jsTrim bad.toList)).length < 2) :
    buildIndexLines (l1 ++ bad :: l2) = buildIndexLines (l1 ++ l2) := by
  unfold buildIndexLines
  rw [List.foldl_append, List.foldl_append, List.foldl_cons, processLine_skip _ _ h]

/-- C3: when the parse pass raises (a failed read or decompression, or
the exception a malformed hex token causes), the state the parser
holds afterwards — its entry map and its sorted length list — is
exactly the state it held before, because the index fields are only
assigned after the whole new index is built; and a line with fewer
than two fields is skipped without affecting the rest of the build. -/
theorem claim3_failed_parse_preserves_state :
    (∀ (file : Option String) (st : MacParserState),
        (parseManufCall file st).2.isSome = true → (parseManufCall file st).1 = st) ∧
    (∀ (l1 l2 : List String) (bad : String),
        (partsOfLine (jsTrim bad.toList)).length < 2 →
        buildIndexLines (l1 ++ bad :: l2) = buildIndexLines (l1 ++ l2)) := by
  constructor
  · intro file st h
    cases file with
    | none => rfl
    | some text =>
      have hdef : parseManufCall (some text) st =
          (match buildIndex text with
           | none => (st, some .hexError)
           | some byBits => (⟨byBits, jsSortLens (keysOf byBits), st.ready⟩, none)) := rfl
      rw [hdef] at h ⊢
      cases hb : buildIndex text with
      | none => rfl
      | some bb =>
        rw [hb] at h
        simp at h
  · exact buildIndexLines_skip

/-- C3 witness: a failed read leaves a concrete prior state unchanged,
and dropping a concrete one-field line from between two well-formed
lines leaves the built index identical. -/
theorem claim3_failed_parse_preserves_state_witness :
    (parseManufCall none ⟨[(some 24, [(0, ⟨"000000", "T", ""⟩)])], [some 24], true⟩).1 =
      ⟨[(some 24, [(0, ⟨"000000", "T", ""⟩)])], [some 24], true⟩ ∧
    buildIndexLines ["000000\tA", "junk", "AAAAAA\tB"] =
      buildIndexLines ["000000\tA", "AAAAAA\tB"] := by
  refine ⟨claim3_failed_parse_preserves_state.1 none _ rfl, ?_⟩
  exact claim3_failed_parse_preserves_state.2 ["000000\tA"] ["AAAAAA\tB"] "junk" (by decide)

/-! ### Claim C4. -/

/-- C4 (amended): lookup returns an entry only when the queried
string, after separator stripping and uppercasing, consists of six to
twelve hex digits — the validation accepts every length in that range,
including the odd lengths 7, 9 and 11, not only 12, 10, 8 and 6. -/
theorem claim4_digit_count_gate (entries : Index) (lens : List (Option Int))
    (mac : String) (e : Entry)
    (h : jsLookupIdx entries lens mac = .ok (some e)) :
    validCompact (stripUpper mac) = true := by
  by_contra hv
  have hfalse : ¬ (validCompact (stripUpper mac) = true) := hv
  have hdef : jsLookupIdx entries lens mac =
      (if validCompact (stripUpper mac) then
        lookupLoop entries (hexToNatD (stripUpper mac)) lens
      else .ok none) := rfl
  rw [hdef, if_neg hfalse] at h
  cases h

/-- C4 witness: a six-digit query against a one-entry index returns
that entry, and its stripped form passes the validation. -/
theorem claim4_digit_count_gate_witness :
    validCompact (stripUpper "0000AB") = true :=
  claim4_digit_count_gate [(some 24, [(0, ⟨"000000", "T", ""⟩)])] [some 24]
    "0000AB" ⟨"000000", "T", ""⟩ rfl

/-- C4 counterexample: a seven-digit address — a digit count the claim
says must yield no match — returns an entry from a built index, so the
claim's list of exactly 12, 10, 8 or 6 digits is wrong; the source
regex accepts any count from 6 to 12. -/
theorem claim4_digit_count_gate_counterexample :
    buildIndex "000000\tT" = some [(some 24, [(0, ⟨"000000", "T", ""⟩)])] ∧
    jsLookupIdx [(some 24, [(0, ⟨"000000", "T", ""⟩)])]
      (jsSortLens (keysOf [(some 24, [(0, ⟨"000000", "T", ""⟩)])])) "0000000" =
      .ok (some ⟨"000000", "T", ""⟩) ∧
    (stripUpper "0000000").length = 7 ∧
    ¬ (7 = 12 ∨ 7 = 10 ∨ 7 = 8 ∨ 7 = 6) :=
  ⟨rfl, rfl, rfl, by decide⟩

/-! ### Claim C5. -/

/-- C5 (amended): for every string whose stripped, uppercased form
contains a non-hex character or has a digit count outside 6..12, and
every index, lookup returns null and raises nothing; digit counts the
spec calls wrong but lying inside 6..12 (such as 7) are accepted
instead. -/
theorem claim5_malformed_input_null (entries : Index) (lens : List (Option Int))
    (mac : String)
    (h : (stripUpper mac).length < 6 ∨ 12 < (stripUpper mac).length ∨
         (stripUpper mac).all isHexUp = false) :
    jsLookupIdx entries lens mac = .ok none := by
  have hv : validCompact (stripUpper mac) = false := by
    unfold validCompact
    rcases h with h1 | h1 | h1
    · have : decide (6 ≤ (stripUpper mac).length) = false := by
        simp; omega
      rw [this, Bool.false_and, Bool.false_and]
    · have : decide ((stripUpper mac).length ≤ 12) = false := by
        simp; omega
      rw [this, Bool.and_false, Bool.false_and]
    · rw [h1, Bool.and_false]
  have hdef : jsLookupIdx entries lens mac =
      (if validCompact (stripUpper mac) then
        lookupLoop entries (hexToNatD (stripUpper mac)) lens
      else .ok none) := rfl
  rw [hdef, if_neg (by rw [hv]; exact Bool.false_ne_true)]

/-- C5 witness: a non-hex query against a concrete index returns null. -/
theorem claim5_malformed_input_null_witness :
    jsLookupIdx [(some 24, [(0, ⟨"000000", "T", ""⟩)])] [some 24] "not-hex" = .ok none :=
  claim5_malformed_input_null _ _ "not-hex" (Or.inr (Or.inr rfl))

/-- C5 counterexample: a string of seven digits has a wrong digit
count by the spec's rule (which admits only 12, 10, 8 or 6), yet
lookup returns an entry for it rather than null, so the claim as
stated fails; only counts outside 6..12 are rejected. -/
theorem claim5_malformed_input_null_counterexample :
    buildIndex "000001\tW" = some [(some 24, [(1, ⟨"000001", "W", ""⟩)])] ∧
    jsLookupIdx [(some 24, [(1, ⟨"000001", "W", ""⟩)])]
      (jsSortLens (keysOf [(some 24, [(1, ⟨"000001", "W", ""⟩)])])) "1111111" =
      .ok (some ⟨"000001", "W", ""⟩) ∧
    (stripUpper "1111111").length = 7 ∧
    ¬ (7 = 12 ∨ 7 = 10 ∨ 7 = 8 ∨ 7 = 6) :=
  ⟨rfl, rfl, rfl, by decide⟩

/-! ### Claim C6. -/

/-- C6: for a token of h hex digits and bit count b — explicit, or
defaulting to 4h when the slash suffix is absent — the stored prefix
value is the token's value with the excess low-order bits divided away
when 4h exceeds b, multiplied up (zero-padded) when 4h is below b, and
unchanged when they agree. -/
theorem claim6_shift_semantics :
    (∀ (compact : List Char) (b : Int), 0 ≤ b → ∀ v : Nat,
        prefixIntOf compact (some b) v =
          if b.toNat < 4 * compact.length then v / 2 ^ (4 * compact.length - b.toNat)
          else if 4 * compact.length < b.toNat then v * 2 ^ (b.toNat - 4 * compact.length)
          else v) ∧
    (∀ (compact : List Char) (v : Nat),
        prefixIntOf compact (prefixBitsOf none compact) v = v) := by
  constructor
  · intro compact b hb v
    rw [show prefixIntOf compact (some b) v =
        (if b < (4 * compact.length : Int) then v >>> ((4 * compact.length : Int) - b).toNat
         else if (4 * compact.length : Int) < b then
           v <<< (b - (4 * compact.length : Int)).toNat
         else v) from rfl]
    by_cases h1 : b < (4 * compact.length : Int)
    · have hc : b.toNat < 4 * compact.length := by omega
      have he : ((4 * compact.length : Int) - b).toNat = 4 * compact.length - b.toNat := by
        omega
      rw [if_pos h1, if_pos hc, Nat.shiftRight_eq_div_pow, he]
    · by_cases h2 : (4 * compact.length : Int) < b
      · have hc1 : ¬ (b.toNat < 4 * compact.length) := by omega
        have hc2 : 4 * compact.length < b.toNat := by omega
        have he : (b - (4 * compact.length : Int)).toNat = b.toNat - 4 * compact.length := by
          omega
        rw [if_neg h1, if_pos h2, if_neg hc1, if_pos hc2, Nat.shiftLeft_eq, he]
      · have hc1 : ¬ (b.toNat < 4 * compact.length) := by omega
        have hc2 : ¬ (4 * compact.length < b.toNat) := by omega
        rw [if_neg h1, if_neg h2, if_neg hc1, if_neg hc2]
  · intro compact v
    rw [show prefixBitsOf none compact = some ((4 : Int) * compact.length) from rfl]
    rw [show prefixIntOf compact (some ((4 : Int) * compact.length)) v =
        (if (4 * compact.length : Int) < (4 * compact.length : Int) then
           v >>> ((4 * compact.length : Int) - (4 * compact.length : Int)).toNat
         else if (4 * compact.length : Int) < (4 * compact.length : Int) then
           v <<< ((4 * compact.length : Int) - (4 * compact.length : Int)).toNat
         else v) from rfl]
    rw [if_neg (lt_irrefl _), if_neg (lt_irrefl _)]

/-- C6 witness: the 16-bit Cisco example line: six hex digits valued
12, bit count 16, stored value 12 divided by 2 to the 8, that is 0. -/
theorem claim6_shift_semantics_witness :
    prefixIntOf ['0', '0', '0', '0', '0', 'C'] (some 16) 12 = 12 / 2 ^ 8 := by
  have h := claim6_shift_semantics.1 ['0', '0', '0', '0', '0', 'C'] 16 (by decide) 12
  rw [h]
  decide

/-! ### Claim C7. -/

/-- C7: the staleness check returns true on a missing file, true when
the modification time is earlier than the most recent scheduled
trigger at or before now, false when it is not earlier, and rethrows
any other stat failure. -/
theorem claim7_isExpired_cases :
    (∀ d : Int, isExpiredRun .enoent d = .ok true) ∧
    (∀ m d : Int, m < d → isExpiredRun (.statOk m) d = .ok true) ∧
    (∀ m d : Int, d ≤ m → isExpiredRun (.statOk m) d = .ok false) ∧
    (∀ d : Int, isExpiredRun .otherError d = .error ()) := by
  refine ⟨fun d => rfl, ?_, ?_, fun d => rfl⟩
  · intro m d h
    rw [show isExpiredRun (.statOk m) d = .ok (decide (m < d)) from rfl, decide_eq_true h]
  · intro m d h
    rw [show isExpiredRun (.statOk m) d = .ok (decide (m < d)) from rfl,
        decide_eq_false (not_lt.mpr h)]

/-- C7 witness: the four cases at concrete times. -/
theorem claim7_isExpired_cases_witness :
    isExpiredRun .enoent 0 = .ok true ∧
    isExpiredRun (.statOk 1) 5 = .ok true ∧
    isExpiredRun (.statOk 5) 5 = .ok false ∧
    isExpiredRun .otherError 0 = .error () :=
  ⟨claim7_isExpired_cases.1 0, claim7_isExpired_cases.2.1 1 5 (by omega),
   claim7_isExpired_cases.2.2.1 5 5 (by omega), claim7_isExpired_cases.2.2.2 0⟩

/-! ### Claim C8. -/

/-- C8 (amended): a lookup on an already initialized parser performs
no I/O and leaves the parser state unchanged; on an uninitialized
parser, however, the call first runs init, which performs the file
access check and the file read (both reads — the filesystem contents
are not modified), contrary to the claim's assertion that no I/O
happens regardless of initialization. -/
theorem claim8_lookup_no_io_when_ready (accessOk : Bool) (file : Option String)
    (st : MacParserState) (mac : String) (h : st.ready = true) :
    (lookupCall accessOk file st mac).1 = [] ∧
    (lookupCall accessOk file st mac).2.1 = st := by
  have hinit : initCall accessOk file st = ([], st, none) := by
    rw [initCall, if_pos h]
  unfold lookupCall
  rw [hinit]
  exact ⟨rfl, rfl⟩

/-- C8 witness: a lookup against a concrete ready parser state does no
I/O and preserves the state. -/
theorem claim8_lookup_no_io_when_ready_witness :
    (lookupCall true none ⟨[], [], true⟩ "x").1 = [] ∧
    (lookupCall true none ⟨[], [], true⟩ "x").2.1 = ⟨[], [], true⟩ :=
  claim8_lookup_no_io_when_ready true none ⟨[], [], true⟩ "x" rfl

/-- C8 counterexample: a lookup on a freshly constructed parser
performs the access check and the file read — the claim that lookup
performs no I/O and does not suspend regardless of prior
initialization fails on the uninitialized state. -/
theorem claim8_lookup_no_io_when_ready_counterexample :
    (lookupCall true (some "000000\tT") initialParserState "0000AB").1 =
      [.fileAccess, .fileRead] ∧
    (lookupCall true (some "000000\tT") initialParserState "0000AB").2.2 =
      .ok (some ⟨"000000", "T", ""⟩) ∧
    [IOAct.fileAccess, IOAct.fileRead] ≠ [] :=
  ⟨rfl, rfl, by decide⟩

/-! ### Claim C9. -/

/-- C9 (amended): every index the parse pass accepts satisfies: no two
entries share the same (prefixBits, prefixValue) key, and every entry
whose prefixBits is a nonnegative number b has prefixValue below 2 to
the b; but prefixBits itself is whatever parseInt produced — including
0, values above 48, or NaN — not necessarily an integer in 1..48. -/
theorem claim9_index_invariant (text : String) (idx : Index)
    (h : buildIndex text = some idx) :
    (keysOf idx).Nodup ∧
    ∀ p ∈ idx, (p.2.map Prod.fst).Nodup ∧
      ∀ q ∈ p.2, ∀ b : Int, p.1 = some b → 0 ≤ b → q.1 < 2 ^ b.toNat := by
  have hwf := buildIndex_wf h
  exact ⟨hwf.1, fun p hp => ⟨(hwf.2 p hp).1, (hwf.2 p hp).2⟩⟩

/-- C9 witness: the key list of a concretely built one-entry index has
no duplicates. -/
theorem claim9_index_invariant_witness :
    (keysOf [((some 24 : Option Int), [((0 : Nat), Entry.mk "000000" "T" "")])]).Nodup :=
  (claim9_index_invariant "000000\tT" _ rfl).1

/-- C9 counterexample: the line with an explicit zero bit count is
accepted and stored with prefixBits 0, which is not an integer in
1..48, so the claimed range invariant fails on the built index. -/
theorem claim9_index_invariant_counterexample :
    buildIndex "AA/0\tV" = some [(some 0, [(0, ⟨"AA/0", "V", ""⟩)])] ∧
    ¬ ((1 : Int) ≤ 0 ∧ (0 : Int) ≤ 48) :=
  ⟨rfl, by decide⟩

/-! ### Claim C10. -/

theorem downloadFileRun_success (emitErrors emitUpdate : Bool) (code : Int) (body : String)
    (h1 : 200 ≤ code) (h2 : code < 300) :
    downloadFileRun emitErrors emitUpdate (.ok (code, body)) true = ([.updated], true) := by
  rw [show downloadFileRun emitErrors emitUpdate (.ok (code, body)) true =
      (if code < 200 ∨ 300 ≤ code then
        ((if emitErrors then [SfdEvent.errorStage "download"] else []), false)
       else ([SfdEvent.updated], true)) from rfl]
  rw [if_neg (by omega)]

/-- C10: the download routine's update-suppression option is accepted
but never read: every successful download emits the updated event for
either value of the option — in particular for the value false that
init passes for its initial download — so the updated notification
also fires during initialization, contrary to the downloader's own
documentation. -/
theorem claim10_emitUpdate_ignored :
    (∀ (emitErrors emitUpdate : Bool) (code : Int) (body : String),
        200 ≤ code → code < 300 →
        downloadFileRun emitErrors emitUpdate (.ok (code, body)) true = ([.updated], true)) ∧
    (∀ (emitErrors emitUpdate emitUpdate' : Bool) (net : Except Unit (Int × String))
        (writeOk : Bool),
        downloadFileRun emitErrors emitUpdate net writeOk =
          downloadFileRun emitErrors emitUpdate' net writeOk) ∧
    (∀ (throwOnInit : Bool) (code : Int) (body : String),
        200 ≤ code → code < 300 →
        sfdInitRun throwOnInit (.ok true) (.ok (code, body)) true = .ok [.updated]) := by
  refine ⟨downloadFileRun_success, fun eE eU eU' net wOk => rfl, ?_⟩
  intro t code body h1 h2
  have hd := downloadFileRun_success (!t) false code body h1 h2
  simp [sfdInitRun, hd]

/-- C10 witness: a successful download with the update flag false
(init's own arguments) emits exactly the updated event, and the init
path with a stale file and a successful download yields exactly the
updated event. -/
theorem claim10_emitUpdate_ignored_witness :
    downloadFileRun true false (.ok (200, "payload")) true = ([.updated], true) ∧
    sfdInitRun true (.ok true) (.ok (200, "payload")) true = .ok [.updated] :=
  ⟨claim10_emitUpdate_ignored.1 true false 200 "payload" (by omega) (by omega),
   claim10_emitUpdate_ignored.2.2 true 200 "payload" (by omega) (by omega)⟩

end WiresharkOui
